import Mathlib

/-!
A verification development for the gcd tool (src/main.rs): a shallow
embedding of its config store, repository scanner, index builder and match
resolver, with theorems checking the specification's claims against it.
-/

namespace GCD

/-! ## Filesystem model and the repository scanner (find_git_repos) -/

/-- A filesystem node: a name, whether it is a directory, and its children.
Children of non-directories are never traversed. -/
inductive FsTree where
  | node (name : String) (isDir : Bool) (children : List FsTree)

def FsTree.name : FsTree → String
  | .node n _ _ => n

def FsTree.isDir : FsTree → Bool
  | .node _ d _ => d

def FsTree.children : FsTree → List FsTree
  | .node _ _ cs => cs

/-- The names pruned by the filter_entry closure in find_git_repos
(src/main.rs:78-82). -/
def denylist : List String := [".git", "node_modules", "target"]

/-- The check entry.path().join(".git").is_dir() (src/main.rs:89): the
node has an immediate child directory named .git. -/
def hasGitDir (cs : List FsTree) : Bool :=
  cs.any fun c => c.name == ".git" && c.isDir

mutual

/-- WalkDir's depth-first pre-order traversal with filter_entry
(src/main.rs:75-87): a node whose name is on the denylist is neither
yielded nor descended into; this applies to the root entry as well.
Paths are component lists, the root's file name first. -/
def walkTree (pre : List String) : FsTree → List (List String × FsTree)
  | .node n d cs =>
    if denylist.contains n then []
    else (pre ++ [n], FsTree.node n d cs) ::
      (if d then walkList (pre ++ [n]) cs else [])

def walkList (pre : List String) : List FsTree → List (List String × FsTree)
  | [] => []
  | c :: cs => walkTree pre c ++ walkList pre cs

end

/-- find_git_repos (src/main.rs:73-94): every visited directory that has an
immediate .git child directory is reported, in traversal order. -/
def find_git_repos (t : FsTree) : List (List String) :=
  (walkTree [] t).filterMap fun e =>
    if e.2.isDir && hasGitDir e.2.children then some e.1 else none

/-- Reach t ps s: starting at t and following the child names ps downward
through directories leads to the subtree s. -/
inductive Reach : FsTree → List String → FsTree → Prop where
  | nil (t : FsTree) : Reach t [] t
  | cons (n : String) (cs : List FsTree) (c s : FsTree) (ps : List String) :
      c ∈ cs → Reach c ps s → Reach (FsTree.node n true cs) (c.name :: ps) s

/-- No component of the path is on the denylist. -/
def pathClean (p : List String) : Prop :=
  ∀ c ∈ p, denylist.contains c = false

/-! ## The index and the config store -/

/-- The persisted name-to-path mapping (the repos field of struct Config,
src/main.rs:38-41), listed in the HashMap's iteration order. The hash map
is seeded randomly per process, so the order is arbitrary and carries no
information across runs; entry keys are unique. -/
abbrev Index := List (String × String)

/-- HashMap lookup on the iteration-order list. -/
def lookup (m : Index) (k : String) : Option String :=
  (m.find? fun e => e.1 == k).map fun e => e.2

/-- HashMap::insert: replace the value of an existing key in place,
otherwise add the entry. -/
def insertRepo (m : Index) (k v : String) : Index :=
  match m with
  | [] => [(k, v)]
  | e :: rest => if e.1 == k then (k, v) :: rest else e :: insertRepo rest k v

/-- Split a character list on the path separator. -/
def splitSlash : List Char → List (List Char)
  | [] => [[]]
  | c :: cs =>
    match splitSlash cs with
    | [] => [[]]
    | h :: t => if c == '/' then [] :: h :: t else (c :: h) :: t

/-- Path::file_name on a canonicalized absolute path: the last nonempty
slash-separated component, or none for the filesystem root. -/
def fileName? (p : String) : Option String :=
  (((splitSlash p.toList).filter fun c => c != []).getLast?).map List.asString

/-- The indexing loop of main (src/main.rs:217-224): each discovered path
is inserted under its final component. The unwrap of file_name() has no
fallback: none models the panic on a path with no final component, which
aborts the whole loop. -/
def indexRepos (m : Index) (repos : List String) : Option Index :=
  match repos with
  | [] => some m
  | p :: rest =>
    match fileName? p with
    | none => none
    | some n => indexRepos (insertRepo m n p) rest

/-- The last discovered path whose final component is k. -/
def lastNamed (ds : List String) (k : String) : Option String :=
  (ds.filter fun p => fileName? p == some k).getLast?

/-- A JSON value, the shape serde_json parses the persisted file into. -/
inductive Json where
  | null
  | bool (b : Bool)
  | num (n : Int)
  | str (s : String)
  | arr (elems : List Json)
  | obj (fields : List (String × Json))

/-- struct Config (src/main.rs:38-41). -/
structure Config where
  repos : Index
deriving DecidableEq

/-- Serialize for Config as serde_json writes it: one object with a repos
field holding the mapping, values as path strings, in iteration order. -/
def configToJson (c : Config) : Json :=
  Json.obj [("repos", Json.obj (c.repos.map fun e => (e.1, Json.str e.2)))]

/-- Deserialize for HashMap of String to PathBuf: entries are inserted in
order (a later duplicate key overwrites an earlier one); a value that is
not a JSON string is an error. -/
def parseRepos (acc : Index) : List (String × Json) → Option Index
  | [] => some acc
  | e :: rest =>
    match e.2 with
    | Json.str s => parseRepos (insertRepo acc e.1 s) rest
    | _ => none

/-- The derived Deserialize for Config reading the fields of the object: a
missing repos field or a duplicate repos field is an error, unknown fields
are ignored. -/
def findRepos : List (String × Json) → Option Json
  | [] => none
  | e :: rest =>
    if e.1 == "repos" then
      if rest.any fun e2 => e2.1 == "repos" then none else some e.2
    else findRepos rest

/-- serde_json::from_str for Config. -/
def configFromJson (j : Json) : Option Config :=
  match j with
  | Json.obj fields =>
    match findRepos fields with
    | some (Json.obj es) => (parseRepos [] es).map Config.mk
    | _ => none
  | _ => none

/-- What the config file on disk can be when Config::load runs: absent,
present but unreadable, present but not valid JSON text, or valid JSON. -/
inductive FileState where
  | missing
  | readFailure
  | invalid
  | json (j : Json)

/-- Config::load (src/main.rs:44-54): a missing file gives the default
empty config; a read failure gives the empty string via unwrap_or_default,
which is not valid JSON, so parsing fails and unwrap_or_default gives the
default; invalid JSON text likewise; valid JSON that does not deserialize
to a Config also falls back to the default. -/
def Config.load : FileState → Config
  | .missing => ⟨[]⟩
  | .readFailure => ⟨[]⟩
  | .invalid => ⟨[]⟩
  | .json j => (configFromJson j).getD ⟨[]⟩

/-- Config::save (src/main.rs:56-63): the whole serialized config replaces
the file; the value the file then parses back to. -/
def Config.save (c : Config) : Json :=
  configToJson c

/-! ## The match resolver -/

/-- A word-boundary position: the start of the name or a separator. -/
def wordBoundary : Option Char → Bool
  | none => true
  | some c => c == '/' || c == '-' || c == '_' || c == ' ' || c == '.'

/-- Modelled from the spec: the scoring loop of the external fuzzy matcher
(SkimMatcherV2 of the fuzzy_matcher crate, not code of this repository).
Per the spec, the characters of the query must appear in order within the
name, with contiguous runs, word-boundary starts and case matches weighted
favorably, and non-matches excluded rather than scored zero. Matching here
is greedy and case-insensitive; each matched character scores a base
weight plus the bonuses. A query with no characters left to match always
succeeds with the accumulated score, so the empty query matches every name
with score zero. -/
def fuzzyScoreAux : List Char → Option Char → Bool → List Char → Int → Option Int
  | _, _, _, [], acc => some acc
  | [], _, _, _ :: _, _ => none
  | c :: name, prev, prevMatched, q :: qs, acc =>
    if c.toLower == q.toLower then
      fuzzyScoreAux name (some c) true qs
        (acc + 16 + (if prevMatched then 8 else 0) +
          (if wordBoundary prev then 8 else 0) + (if c == q then 4 else 0))
    else
      fuzzyScoreAux name (some c) false (q :: qs) acc

/-- Modelled from the spec: fuzzy_match of the external matcher, scoring a
name against the query pattern. -/
def fuzzyScore (name pat : String) : Option Int :=
  fuzzyScoreAux name.toList none false pat.toList 0

/-- The match collection of main's resolve branch (src/main.rs:235-243):
entries in the map's iteration order, matched entries kept with their
scores. -/
def matchList (score : String → String → Option Int) (repos : Index)
    (pat : String) : List (Int × String × String) :=
  repos.filterMap fun e => (score e.1 pat).map fun s => (s, e.1, e.2)

/-- Stable insertion into a list sorted by descending score: the new,
earlier element goes before every later element of equal or smaller score.
sortMatches below is then exactly the output of the stable
matches.sort_by(|a, b| b.0.cmp(&a.0)) of src/main.rs:245: descending by
score, ties left in iteration order. -/
def insertDesc (x : Int × String × String) :
    List (Int × String × String) → List (Int × String × String)
  | [] => [x]
  | y :: ys => if y.1 ≤ x.1 then x :: y :: ys else y :: insertDesc x ys

def sortMatches : List (Int × String × String) → List (Int × String × String)
  | [] => []
  | x :: xs => insertDesc x (sortMatches xs)

/-- The resolve branch of main (src/main.rs:232-252): score every entry,
sort descending by score, take the first match's path. -/
def resolve (score : String → String → Option Int) (repos : Index)
    (pat : String) : Option String :=
  (sortMatches (matchList score repos pat)).head?.map fun m => m.2.2

/-! ## The index operation of main -/

inductive IndexErr where
  | invalidScanRoot
  | nameUnwrapPanic
deriving DecidableEq

/-- An observable effect of the index operation: traversing the scan root,
or writing the config file. -/
inductive Event where
  | scan (root : String)
  | write (c : Config)

/-- The path string WalkDir reports for a visited node: the canonicalized
root path itself for the root entry, root/components for descendants. -/
def renderPath (rootPath : String) (p : List String) : String :=
  match p with
  | [] => rootPath
  | _ :: rest => rest.foldl (fun acc c => acc ++ "/" ++ c) rootPath

/-- The Index command of main (src/main.rs:214-227): canonicalize the scan
root (none means canonicalization failed and the expect panic aborts the
run with no scan and no save), then scan, merge every discovered path into
the loaded config, and save once at the end. The trace records, in order,
the traversal and the single file write. -/
def indexRun (canon : Option (String × FsTree)) (cfg : Config) :
    List Event × Option IndexErr :=
  match canon with
  | none => ([], some IndexErr.invalidScanRoot)
  | some (rootPath, t) =>
    let repos := (find_git_repos t).map (renderPath rootPath)
    match indexRepos cfg.repos repos with
    | none => ([Event.scan rootPath], some IndexErr.nameUnwrapPanic)
    | some rs => ([Event.scan rootPath, Event.write ⟨rs⟩], none)

/-- The config-file writes a trace contains. -/
def writesOf (evs : List Event) : List Config :=
  evs.filterMap fun e =>
    match e with
    | Event.write c => some c
    | _ => none

/-- Induction over the nested tree: prove a property of a node from the
property at every child. -/
theorem FsTree.strongInd (motive : FsTree → Prop)
    (h : ∀ n d cs, (∀ c, c ∈ cs → motive c) → motive (FsTree.node n d cs)) :
    ∀ t, motive t
  | .node n d cs => h n d cs fun c hc => FsTree.strongInd motive h c
termination_by t => sizeOf t
decreasing_by
  have h1 := List.sizeOf_lt_of_mem hc
  simp only [FsTree.node.sizeOf_spec]
  omega

theorem mem_walkList (pre : List String) (cs : List FsTree)
    (x : List String × FsTree) :
    x ∈ walkList pre cs ↔ ∃ c, c ∈ cs ∧ x ∈ walkTree pre c := by
  induction cs with
  | nil => simp [walkList]
  | cons c cs ih =>
    simp only [walkList, List.mem_append, ih]
    constructor
    · rintro (hx | ⟨c2, hc2, hx⟩)
      · exact ⟨c, List.mem_cons_self c cs, hx⟩
      · exact ⟨c2, List.mem_cons_of_mem c hc2, hx⟩
    · rintro ⟨c2, hc2, hx⟩
      rcases List.mem_cons.mp hc2 with h1 | h1
      · exact Or.inl (h1 ▸ hx)
      · exact Or.inr ⟨c2, h1, hx⟩

/-- Everything walkTree visits, characterized: a pair (path, subtree) is
yielded exactly when the subtree is reachable through directories whose
names (the root's and the subtree's own included) avoid the denylist. -/
theorem mem_walkTree (t : FsTree) : ∀ (pre : List String)
    (x : List String × FsTree), x ∈ walkTree pre t ↔
    ∃ ps s, x = (pre ++ t.name :: ps, s) ∧ Reach t ps s ∧
      pathClean (t.name :: ps) := by
  induction t using FsTree.strongInd with
  | h n d cs ih =>
    intro pre x
    by_cases hden : denylist.contains n = true
    · simp only [walkTree, hden, if_true, List.not_mem_nil, false_iff]
      rintro ⟨ps, s, hx, hr, hclean⟩
      have h2 := hclean n (List.mem_cons_self n ps)
      rw [h2] at hden
      exact Bool.false_ne_true hden
    · have hden2 : denylist.contains n = false := by
        exact Bool.not_eq_true _ ▸ hden
      simp only [walkTree, hden2, Bool.false_eq_true, if_false, List.mem_cons]
      constructor
      · rintro (hx | hx)
        · refine ⟨[], FsTree.node n d cs, ?_, Reach.nil _, ?_⟩
          · simpa [FsTree.name] using hx
          · intro c hc
            simp only [List.mem_singleton] at hc
            rw [hc]
            exact hden2
        · rcases hd : d with _ | _
          · rw [hd] at hx
            simp at hx
          · rw [hd] at hx
            simp only [if_true] at hx
            rcases (mem_walkList _ _ _).mp hx with ⟨c, hc, hxc⟩
            rcases (ih c hc _ _).mp hxc with ⟨ps, s, hxe, hr, hclean⟩
            refine ⟨c.name :: ps, s, ?_, ?_, ?_⟩
            · rw [hxe]
              simp [FsTree.name]
            · exact Reach.cons n cs c s ps hc hr
            · intro q hq
              rcases List.mem_cons.mp hq with h1 | h1
              · rw [h1]; exact hden2
              · exact hclean q h1
      · rintro ⟨ps, s, hx, hr, hclean⟩
        cases hr with
        | nil =>
          left
          rw [hx]
          simp [FsTree.name]
        | cons _ _ c _ ps2 hc hr2 =>
          right
          simp only [if_true]
          refine (mem_walkList _ _ _).mpr ⟨c, hc, ?_⟩
          refine (ih c hc _ _).mpr ⟨ps2, s, ?_, hr2, ?_⟩
          · rw [hx]
            simp [FsTree.name]
          · intro q hq
            exact hclean q (List.mem_cons_of_mem _ hq)

/-- C2 (amended): scan reports the path of a directory D if and only if D
has an immediate child directory named .git and every directory name on the
path from the scan root to D — the root's own name and D's own name
included — avoids the denylist; in particular no reported path lies inside a
denylisted directory, and a repository root nested in another repository's
non-denylisted subdirectories is still reported. -/
theorem c2_repo_detection (t : FsTree) (p : List String) :
    p ∈ find_git_repos t ↔
      ∃ ps s, p = t.name :: ps ∧ Reach t ps s ∧ s.isDir = true ∧
        hasGitDir s.children = true ∧ pathClean p := by
  unfold find_git_repos
  rw [List.mem_filterMap]
  constructor
  · rintro ⟨⟨q, s⟩, hmem, hf⟩
    by_cases hgit : (s.isDir && hasGitDir s.children) = true
    · simp only [hgit, if_true] at hf
      have hqp : q = p := by simpa using hf
      rcases (mem_walkTree t [] ⟨q, s⟩).mp hmem with ⟨ps, s2, hx, hr, hclean⟩
      have hq : q = t.name :: ps := by simpa using congrArg Prod.fst hx
      have hs : s2 = s := by simpa using (congrArg Prod.snd hx).symm
      rcases Bool.and_eq_true_iff.mp hgit with ⟨h1, h2⟩
      refine ⟨ps, s, ?_, hs ▸ hr, h1, h2, ?_⟩
      · rw [← hqp, hq]
      · rw [← hqp, hq]
        exact hclean
    · simp only [if_neg hgit] at hf
      exact absurd hf (by simp)
  · rintro ⟨ps, s, hp, hr, hdir, hgit, hclean⟩
    refine ⟨(t.name :: ps, s), ?_, ?_⟩
    · exact (mem_walkTree t [] _).mpr ⟨ps, s, by simp, hr, hp ▸ hclean⟩
    · simp [hdir, hgit, hp]

/-- C2 (counterexample): a directory named node_modules that itself has an
immediate .git child directory and does not lie inside any denylisted
directory (its one ancestor is named r) is a directory with a repo marker,
yet scan reports nothing, refuting the claimed characterization. -/
theorem c2_counterexample :
    (FsTree.node "node_modules" true [FsTree.node ".git" true []]).isDir = true ∧
    hasGitDir (FsTree.node "node_modules" true [FsTree.node ".git" true []]).children
      = true ∧
    find_git_repos (FsTree.node "r" true
      [FsTree.node "node_modules" true [FsTree.node ".git" true []]]) = [] := by
  refine ⟨rfl, by decide, ?_⟩
  simp [find_git_repos, walkTree, walkList, hasGitDir, denylist,
    FsTree.isDir, FsTree.children, FsTree.name]

/-- C3 (amended): provided the scan root's own directory name is not on the
denylist, scan(root) includes root itself whenever root is a directory with
an immediate .git child directory. -/
theorem c3_root_detected (t : FsTree) (h1 : denylist.contains t.name = false)
    (h2 : t.isDir = true) (h3 : hasGitDir t.children = true) :
    [t.name] ∈ find_git_repos t := by
  cases t with
  | node n d cs =>
    simp only [FsTree.name, FsTree.isDir, FsTree.children] at h1 h2 h3
    unfold find_git_repos
    refine List.mem_filterMap.mpr ⟨([n], FsTree.node n d cs), ?_, ?_⟩
    · unfold walkTree
      rw [h1]
      simp
    · simp [FsTree.isDir, FsTree.children, FsTree.name, h2, h3]

/-- C3 (witness): a concrete clean-named root with an immediate .git child
directory is reported by scan. -/
theorem c3_witness :
    ["proj"] ∈ find_git_repos
      (FsTree.node "proj" true [FsTree.node ".git" true []]) :=
  c3_root_detected (FsTree.node "proj" true [FsTree.node ".git" true []])
    (by decide) rfl (by decide)

/-- C3 (counterexample): a scan root itself named target, a directory with
an immediate .git child directory, is pruned by filter_entry before being
yielded, so scan of it reports nothing — root is not detected. -/
theorem c3_counterexample :
    (FsTree.node "target" true [FsTree.node ".git" true []]).isDir = true ∧
    hasGitDir (FsTree.node "target" true [FsTree.node ".git" true []]).children
      = true ∧
    find_git_repos (FsTree.node "target" true [FsTree.node ".git" true []]) = [] := by
  refine ⟨rfl, by decide, ?_⟩
  simp [find_git_repos, walkTree, denylist]

/-! ## Lemmas on lookup, insertion and the index builder -/

theorem lookup_cons (e : String × String) (rest : Index) (x : String) :
    lookup (e :: rest) x = if e.1 == x then some e.2 else lookup rest x := by
  by_cases h : (e.1 == x) = true
  · simp [lookup, List.find?_cons_of_pos _ h, h]
  · simp [lookup, List.find?_cons_of_neg _ h, h]

theorem lookup_insertRepo (m : Index) (k v x : String) :
    lookup (insertRepo m k v) x = if x = k then some v else lookup m x := by
  induction m with
  | nil =>
    by_cases hx : x = k
    · simp [insertRepo, lookup_cons, hx, lookup]
    · have : (k == x) = false := by simp [Ne.symm hx]
      simp [insertRepo, lookup_cons, this, hx, lookup]
  | cons e rest ih =>
    by_cases he : (e.1 == k) = true
    · simp only [insertRepo, he, if_true]
      have he2 : e.1 = k := by simpa using he
      by_cases hx : x = k
      · simp [lookup_cons, hx]
      · have h1 : (k == x) = false := by simp [Ne.symm hx]
        have h2 : (e.1 == x) = false := by simp [he2, Ne.symm hx]
        simp [lookup_cons, h1, h2, hx]
    · simp only [insertRepo, he, Bool.false_eq_true, if_false]
      rw [lookup_cons, lookup_cons, ih]
      by_cases hx : (e.1 == x) = true
      · have hx2 : e.1 = x := by simpa using hx
        have : ¬ x = k := by
          intro h
          rw [h] at hx2
          rw [hx2] at he
          simp at he
        simp [hx, this]
      · simp [hx]

theorem getLast?_cons_ne_none (r : String) (rs : List String) :
    (r :: rs).getLast? ≠ none := by
  induction rs generalizing r with
  | nil => simp
  | cons a l ih =>
    rw [List.getLast?_cons_cons]
    exact ih a

theorem lastNamed_cons (p : String) (rest : List String) (k : String) :
    lastNamed (p :: rest) k =
      (lastNamed rest k).or
        (if fileName? p == some k then some p else none) := by
  unfold lastNamed
  rw [List.filter_cons]
  cases hrest : rest.filter fun q => fileName? q == some k with
  | nil =>
    by_cases hp : (fileName? p == some k) = true
    · simp [hp]
    · simp [hp]
  | cons r rs =>
    rcases hgl : (r :: rs).getLast? with _ | q
    · exact absurd hgl (getLast?_cons_ne_none r rs)
    · by_cases hp : (fileName? p == some k) = true
      · simp [hp, List.getLast?_cons_cons, hgl]
      · simp [hp, hgl]

/-- Soundness of the indexing loop: when every discovered path has a final
component the loop completes, and an index lookup afterwards returns the
last discovered path with that final component, falling back to the
pre-existing entry. -/
theorem indexRepos_sound (ds : List String) : ∀ m : Index,
    (∀ p ∈ ds, (fileName? p).isSome = true) →
    ∃ m2, indexRepos m ds = some m2 ∧
      ∀ k, lookup m2 k = (lastNamed ds k).or (lookup m k) := by
  induction ds with
  | nil =>
    intro m _
    exact ⟨m, rfl, fun k => by simp [lastNamed]⟩
  | cons p rest ih =>
    intro m h
    have hp := h p (List.mem_cons_self p rest)
    rcases ho : fileName? p with _ | n
    · rw [ho] at hp
      simp at hp
    · rcases ih (insertRepo m n p)
        (fun q hq => h q (List.mem_cons_of_mem p hq)) with ⟨m2, heq, hchar⟩
      refine ⟨m2, by simp [indexRepos, ho, heq], ?_⟩
      intro k
      rw [hchar k, lastNamed_cons, lookup_insertRepo]
      cases hl : lastNamed rest k with
      | some q => simp [hl, Option.or]
      | none =>
        simp only [hl, Option.none_or]
        by_cases hk : k = n
        · subst hk
          simp [ho, Option.or]
        · have hne : (some n == some k) = false := by simp [Ne.symm hk]
          simp [ho, hne, hk, Option.or]

/-- C4: the index builder inserts each discovered path under its final path
component as key, a key collision being overwritten with the last processed
path winning; existing entries whose keys do not collide are retained
(looked up unchanged), and an empty discovered sequence leaves the index
unchanged. -/
theorem c4_build_merge (m : Index) (ds : List String)
    (h : ∀ p ∈ ds, (fileName? p).isSome = true) :
    indexRepos m [] = some m ∧
    (∀ p1 p2 n, fileName? p1 = some n → fileName? p2 = some n →
      indexRepos [] [p1, p2] = some [(n, p2)]) ∧
    ∃ m2, indexRepos m ds = some m2 ∧
      ∀ k, lookup m2 k = (lastNamed ds k).or (lookup m k) := by
  refine ⟨rfl, ?_, indexRepos_sound ds m h⟩
  intro p1 p2 n h1 h2
  simp [indexRepos, h1, h2, insertRepo]

/-- C4 (witness): merging two discovered paths that share the leaf name x
into an index holding an unrelated entry keeps that entry and maps x to the
second path. -/
theorem c4_witness :
    indexRepos ([("old", "/o/old")] : Index) [] = some [("old", "/o/old")] ∧
    (∀ p1 p2 n, fileName? p1 = some n → fileName? p2 = some n →
      indexRepos [] [p1, p2] = some [(n, p2)]) ∧
    ∃ m2, indexRepos [("old", "/o/old")] ["/a/x", "/b/x"] = some m2 ∧
      ∀ k, lookup m2 k =
        (lastNamed ["/a/x", "/b/x"] k).or (lookup [("old", "/o/old")] k) :=
  c4_build_merge [("old", "/o/old")] ["/a/x", "/b/x"] (by decide)

/-- C10: name extraction unwraps file_name() with no fallback, so a
discovered path with no final component — the filesystem root, reported
when /.git exists — makes the index operation panic instead of producing an
entry; under the precondition that every discovered path has a final
component the panic branch is unreachable and indexing completes. -/
theorem c10_unwrap_precondition (m : Index) (repos : List String)
    (h : ∀ p ∈ repos, (fileName? p).isSome = true) :
    (indexRepos m repos).isSome = true ∧ indexRepos m ["/"] = none := by
  constructor
  · rcases indexRepos_sound repos m h with ⟨m2, heq, _⟩
    rw [heq]
    rfl
  · have hroot : fileName? "/" = none := rfl
    simp [indexRepos, hroot]

/-- C10 (witness): a normal absolute path indexes fine; the path / panics. -/
theorem c10_witness :
    (indexRepos [] ["/home/u/proj"]).isSome = true ∧
    indexRepos [] ["/"] = none :=
  c10_unwrap_precondition [] ["/home/u/proj"] (by decide)

/-! ## Load and save -/

/-- C5: Config::load returns the empty mapping, raising no error, both when
the persisted file does not exist and when it exists but fails to read or
parse (unreadable file, invalid JSON text, or JSON of the wrong shape); as
a total function into Config it never fails fatally on any file state. -/
theorem c5_load_recovers (j : Json) (h : configFromJson j = none) :
    Config.load FileState.missing = ⟨[]⟩ ∧
    Config.load FileState.readFailure = ⟨[]⟩ ∧
    Config.load FileState.invalid = ⟨[]⟩ ∧
    Config.load (FileState.json j) = ⟨[]⟩ := by
  refine ⟨rfl, rfl, rfl, ?_⟩
  simp [Config.load, h]

/-- C5 (witness): a file holding the JSON string "oops" — valid JSON of the
wrong shape — loads as the empty config, as do the other failure states. -/
theorem c5_witness :
    Config.load FileState.missing = ⟨[]⟩ ∧
    Config.load FileState.readFailure = ⟨[]⟩ ∧
    Config.load FileState.invalid = ⟨[]⟩ ∧
    Config.load (FileState.json (Json.str "oops")) = ⟨[]⟩ :=
  c5_load_recovers (Json.str "oops") rfl

theorem insertRepo_append (acc : Index) (k v : String)
    (h : lookup acc k = none) :
    insertRepo acc k v = acc ++ [(k, v)] := by
  induction acc with
  | nil => rfl
  | cons e rest ih =>
    rw [lookup_cons] at h
    by_cases he : (e.1 == k) = true
    · rw [if_pos he] at h
      exact absurd h (by simp)
    · rw [if_neg (by simp [he])] at h
      simp [insertRepo, he, ih h]

theorem lookup_append (a b : Index) (k : String) :
    lookup (a ++ b) k = (lookup a k).or (lookup b k) := by
  induction a with
  | nil => simp [lookup]
  | cons e rest ih =>
    rw [List.cons_append, lookup_cons, lookup_cons]
    by_cases he : (e.1 == k) = true
    · simp [he]
    · simp [he, ih]

theorem parseRepos_roundtrip (l : Index) : ∀ acc : Index,
    (l.map Prod.fst).Nodup → (∀ e ∈ l, lookup acc e.1 = none) →
    parseRepos acc (l.map fun e => (e.1, Json.str e.2)) = some (acc ++ l) := by
  induction l with
  | nil =>
    intro acc _ _
    simp [parseRepos]
  | cons e rest ih =>
    intro acc hnd hfresh
    rw [List.map_cons] at hnd
    rcases List.nodup_cons.mp hnd with ⟨hnot, hrest⟩
    simp only [List.map_cons, parseRepos]
    rw [insertRepo_append acc e.1 e.2 (hfresh e (List.mem_cons_self e rest))]
    rw [ih (acc ++ [(e.1, e.2)]) hrest ?_]
    · simp
    · intro q hq
      have h1 : lookup acc q.1 = none := hfresh q (List.mem_cons_of_mem e hq)
      have h2 : (e.1 == q.1) = false := by
        simp only [beq_eq_false_iff_ne, ne_eq]
        intro hcontra
        exact hnot (by rw [hcontra]; exact List.mem_map_of_mem Prod.fst hq)
      rw [lookup_append, h1, lookup_cons]
      simp [h2, lookup, Option.or]

/-- C6: saving a config and loading the result back yields the original
config, for every representable mapping — one whose keys are unique, the
HashMap invariant: load after save is the identity. -/
theorem c6_roundtrip (c : Config) (h : (c.repos.map Prod.fst).Nodup) :
    Config.load (FileState.json (Config.save c)) = c := by
  cases c with
  | mk repos =>
    have hp := parseRepos_roundtrip repos [] (by simpa using h) (fun e _ => rfl)
    rw [List.nil_append] at hp
    simp [Config.save, configToJson, Config.load, configFromJson, findRepos, hp]

/-- C6 (witness): a concrete two-entry config survives the save-load round
trip unchanged. -/
theorem c6_witness :
    Config.load (FileState.json (Config.save ⟨[("a", "/x/a"), ("b", "/y/b")]⟩)) =
      ⟨[("a", "/x/a"), ("b", "/y/b")]⟩ :=
  c6_roundtrip ⟨[("a", "/x/a"), ("b", "/y/b")]⟩ (by decide)

/-! ## Lemmas on the resolver -/

theorem mem_insertDesc (x y : Int × String × String)
    (l : List (Int × String × String)) :
    y ∈ insertDesc x l ↔ y = x ∨ y ∈ l := by
  induction l with
  | nil => simp [insertDesc]
  | cons z zs ih =>
    by_cases hz : z.1 ≤ x.1
    · simp only [insertDesc, hz, if_true, List.mem_cons]
    · simp only [insertDesc, hz, if_false, List.mem_cons, ih]
      tauto

theorem mem_sortMatches (l : List (Int × String × String))
    (y : Int × String × String) :
    y ∈ sortMatches l ↔ y ∈ l := by
  induction l with
  | nil => simp [sortMatches]
  | cons x xs ih => simp [sortMatches, mem_insertDesc, ih, List.mem_cons]

theorem insertDesc_ne_nil (x : Int × String × String)
    (l : List (Int × String × String)) : insertDesc x l ≠ [] := by
  cases l with
  | nil => simp [insertDesc]
  | cons z zs =>
    by_cases hz : z.1 ≤ x.1 <;> simp [insertDesc, hz]

theorem sortMatches_eq_nil (l : List (Int × String × String)) :
    sortMatches l = [] ↔ l = [] := by
  cases l with
  | nil => simp [sortMatches]
  | cons x xs => simp [sortMatches, insertDesc_ne_nil]

theorem insertDesc_head (x : Int × String × String)
    (l : List (Int × String × String)) :
    ∃ m, (insertDesc x l).head? = some m ∧ x.1 ≤ m.1 ∧
      ∀ y, l.head? = some y → y.1 ≤ m.1 := by
  cases l with
  | nil =>
    refine ⟨x, rfl, le_refl _, ?_⟩
    intro y hy
    simp at hy
  | cons z zs =>
    by_cases hz : z.1 ≤ x.1
    · refine ⟨x, by simp [insertDesc, hz], le_refl _, ?_⟩
      intro y hy
      simp only [List.head?_cons, Option.some.injEq] at hy
      rw [← hy]
      exact hz
    · refine ⟨z, by simp [insertDesc, hz], le_of_not_le hz, ?_⟩
      intro y hy
      simp only [List.head?_cons, Option.some.injEq] at hy
      rw [← hy]

theorem sortMatches_head_max (l : List (Int × String × String))
    (a : Int × String × String) (ha : a ∈ l) :
    ∃ m, (sortMatches l).head? = some m ∧ a.1 ≤ m.1 := by
  induction l with
  | nil => simp at ha
  | cons x xs ih =>
    rcases insertDesc_head x (sortMatches xs) with ⟨m, hm, hxm, hmax⟩
    rcases List.mem_cons.mp ha with h1 | h1
    · exact ⟨m, hm, h1 ▸ hxm⟩
    · rcases ih h1 with ⟨m2, hm2, ham2⟩
      exact ⟨m, hm, le_trans ham2 (hmax m2 hm2)⟩

/-- C7 (amended): resolve returns none exactly when no entry yields any
fuzzy score at all — in particular for every query against the empty
index — and whenever it returns a path, that path belongs to an entry whose
score is maximal among all scored entries. A matched entry with a zero or
negative score is still returned, so a positive score is not required for a
result. Stated for every scoring function, the resolver being generic in
the external matcher. -/
theorem c7_resolve_characterization (score : String → String → Option Int)
    (repos : Index) (pat : String) :
    (resolve score repos pat = none ↔ ∀ e ∈ repos, score e.1 pat = none) ∧
    ∀ p, resolve score repos pat = some p →
      ∃ n s, (n, p) ∈ repos ∧ score n pat = some s ∧
        ∀ e ∈ repos, ∀ s2, score e.1 pat = some s2 → s2 ≤ s := by
  constructor
  · rw [resolve, Option.map_eq_none', List.head?_eq_none_iff,
      sortMatches_eq_nil, matchList, List.filterMap_eq_nil_iff]
    constructor
    · intro hall e he
      have := hall e he
      simpa [Option.map_eq_none'] using this
    · intro hall e he
      simp [hall e he]
  · intro p hp
    rw [resolve, Option.map_eq_some'] at hp
    rcases hp with ⟨m, hm, hmp⟩
    have hmem : m ∈ matchList score repos pat :=
      (mem_sortMatches _ m).mp (List.mem_of_mem_head? hm)
    rcases List.mem_filterMap.mp hmem with ⟨e, he, hfe⟩
    rw [Option.map_eq_some'] at hfe
    rcases hfe with ⟨s, hs, hsm⟩
    refine ⟨e.1, s, ?_, hs, ?_⟩
    · have : (e.1, p) = e := by
        rw [← hmp, ← hsm]
      rw [this]
      exact he
    · intro e2 he2 s2 hs2
      have hmem2 : (s2, e2.1, e2.2) ∈ matchList score repos pat := by
        rw [matchList, List.mem_filterMap]
        exact ⟨e2, he2, by rw [hs2]; rfl⟩
      rcases sortMatches_head_max _ _ hmem2 with ⟨m2, hm2, hle⟩
      rw [hm] at hm2
      have : m2 = m := by
        have := hm2
        simp only [Option.some.injEq] at this
        exact this.symm
      rw [this] at hle
      have hms : m.1 = s := by
        rw [← hsm]
      rw [hms] at hle
      exact hle

/-- C7 (witness): on the empty index every query resolves to none. -/
theorem c7_witness : resolve fuzzyScore [] "anything" = none :=
  (c7_resolve_characterization fuzzyScore [] "anything").1.mpr (by simp)

/-- C7 (counterexample): the empty query matches the name repo with score
zero — not a positive score — yet resolve returns the entry's path rather
than none, refuting the claim that a positive score is required. -/
theorem c7_counterexample :
    fuzzyScore "repo" "" = some 0 ∧
    resolve fuzzyScore [("repo", "/r")] "" = some "/r" :=
  ⟨rfl, rfl⟩

/-- C1: with the mapping held in a hash map whose per-process seed
randomizes iteration order, and the stable sort comparing only scores, a
score tie is broken by whichever entry the iteration happens to yield
first: the same mapping contents presented in two iteration orders resolve
the same query to two different paths, so resolution is not deterministic
across runs. -/
theorem c1_tiebreak_order_dependent :
    ([("ab", "/p1"), ("ac", "/p2")] : Index).Perm
      [("ac", "/p2"), ("ab", "/p1")] ∧
    fuzzyScore "ab" "a" = fuzzyScore "ac" "a" ∧
    resolve fuzzyScore [("ab", "/p1"), ("ac", "/p2")] "a" = some "/p1" ∧
    resolve fuzzyScore [("ac", "/p2"), ("ab", "/p1")] "a" = some "/p2" :=
  ⟨List.Perm.swap _ _ _, rfl, rfl, rfl⟩

/-! ## The index operation: error surfacing and the write discipline -/

/-- C8: when the scan root cannot be canonicalized the index operation
aborts at once with the invalid-scan-root error: no directory is traversed
and no config write occurs, so the persisted index is not modified. -/
theorem c8_invalid_root_aborts (cfg : Config) :
    (indexRun none cfg).2 = some IndexErr.invalidScanRoot ∧
    (∀ r, Event.scan r ∉ (indexRun none cfg).1) ∧
    ∀ c, Event.write c ∉ (indexRun none cfg).1 := by
  refine ⟨rfl, ?_, ?_⟩ <;> intro a <;> simp [indexRun]

/-- C9: every index run writes the config file at most once, any write is
the final action after all scanning and merging, and a run that fails
before the save — the invalid scan root, or the name-extraction panic —
performs no write at all, leaving the previously persisted file
untouched. -/
theorem c9_single_final_write (canon : Option (String × FsTree))
    (cfg : Config) :
    (writesOf (indexRun canon cfg).1).length ≤ 1 ∧
    ((indexRun canon cfg).2.isSome = true →
      writesOf (indexRun canon cfg).1 = []) ∧
    ∀ c, Event.write c ∈ (indexRun canon cfg).1 →
      (indexRun canon cfg).1.getLast? = some (Event.write c) := by
  rcases canon with _ | ⟨rootPath, t⟩
  · refine ⟨by simp [indexRun, writesOf], fun _ => rfl, ?_⟩
    intro c hc
    simp [indexRun] at hc
  · rcases hb : indexRepos cfg.repos
      ((find_git_repos t).map (renderPath rootPath)) with _ | rs
    · refine ⟨?_, ?_, ?_⟩
      · simp [indexRun, hb, writesOf]
      · intro _
        simp [indexRun, hb, writesOf]
      · intro c hc
        simp [indexRun, hb] at hc
    · refine ⟨?_, ?_, ?_⟩
      · simp [indexRun, hb, writesOf]
      · intro habs
        simp [indexRun, hb] at habs
      · intro c hc
        simp only [indexRun, hb] at hc ⊢
        simp at hc
        rw [hc]
        rfl
